import Mathlib

/-!
# foamlib — verification of the FoamFile document engine and case manager

The repository's visible slice contains the test suite
(`tests/test_files/test_files.py`) and an example script; the engine itself
(tokenizer, parser, serializer, field codec, structured accessor, case
lifecycle manager) is specified in `spec.md`.  The definitions below are a
shallow embedding of that engine, modelled from the spec and checked against
the behaviour the test suite pins down.  Whitespace and comments are
insignificant for round-trip equality (spec §4.1, §4.4), so serialization is
modelled at the token level: the serializer produces the token sequence that
tokenizing its byte output would yield.
-/

namespace Foamlib

/-- Modelled from the spec: the 7-component dimension vector
(mass, length, time, temperature, quantity-of-substance, current,
luminous-intensity — fixed order and length); unspecified components
default to zero. -/
structure DimensionSet where
  mass : ℚ := 0
  length : ℚ := 0
  time : ℚ := 0
  temperature : ℚ := 0
  moles : ℚ := 0
  current : ℚ := 0
  luminousIntensity : ℚ := 0
deriving DecidableEq

/-- The dimension vector as a list, in the format's fixed order. -/
def DimensionSet.toList (d : DimensionSet) : List ℚ :=
  [d.mass, d.length, d.time, d.temperature, d.moles, d.current,
   d.luminousIntensity]

/-- Modelled from the spec: building a dimension vector from a plain list;
the list must have exactly 7 components. -/
def DimensionSet.fromList : List ℚ → Option DimensionSet
  | [m, l, t, th, mo, c, lu] => some ⟨m, l, t, th, mo, c, lu⟩
  | _ => none

/-- Modelled from the spec: the three on-disk encodings of a nonuniform
field payload. -/
inductive Encoding where
  | ascii
  | binary
  | compressed
deriving DecidableEq

/-- Modelled from the spec: one Document Tree value — the sum
Mapping | Sequence | Scalar | DimensionedQuantity | FieldBlock | Directive
(§3, §9).  A field block is `Uniform(value)` or
`NonUniform(encoding, element_count, data)`; the element count is the number
of elements, each element a fixed-size tuple of the field's component arity,
each component a 64-bit float carried as its bit pattern.  A directive is a
macro/include marker carried opaquely and preserved verbatim. -/
inductive Value where
  | word (s : String)
  | num (q : ℚ)
  | list (xs : List Value)
  | dict (es : List (Option String × Value))
  | dimensioned (name : String) (dims : DimensionSet) (val : Value)
  | fieldUniform (v : Value)
  | fieldNonUniform (enc : Encoding) (arity : Nat) (elems : List (List Nat))
  | directive (name : String) (content : String)

/-- Whether a value is self-delimiting on disk: subdictionaries close with
their brace and a directive consumes its own line, so neither is followed by
a semicolon in an entry. -/
def Value.noSemi : Value → Bool
  | .dict _ => true
  | .directive _ _ => true
  | _ => false

mutual

/-- Modelled from the spec's data-model invariants (§3): a tree is
representable by the grammar when every nonuniform field's elements have
exactly the declared component arity and every component fits in the 64-bit
float width used by the binary form. -/
def wfV : Value → Bool
  | .word _ => true
  | .num _ => true
  | .list xs => wfL xs
  | .dict es => wfE es
  | .dimensioned _ _ v => wfV v
  | .fieldUniform v => wfV v
  | .fieldNonUniform _ arity elems =>
      elems.all fun e =>
        e.length == arity && e.all fun w => decide (w < 256 ^ 8)
  | .directive _ _ => true

def wfL : List Value → Bool
  | [] => true
  | v :: vs => wfV v && wfL vs

def wfE : List (Option String × Value) → Bool
  | [] => true
  | e :: es => wfEnt e && wfE es

def wfEnt : Option String × Value → Bool
  | (_, v) => wfV v

end

/-- Modelled from the spec: lexical tokens of the FoamFile grammar, after
whitespace and comments have been discarded by the tokenizer (§4.1):
identifiers, numbers, punctuation, the `uniform`/`nonuniform` field-block
introducers, a directive token carrying its raw content opaquely, and a raw
binary span recognized contextually and consumed verbatim. -/
inductive Token where
  | word (s : String)
  | num (q : ℚ)
  | lparen
  | rparen
  | lbrace
  | rbrace
  | lbrack
  | rbrack
  | semi
  | uniform
  | nonuniform
  | binspan (bytes : List Nat)
  | directive (name : String) (content : String)
deriving DecidableEq

/-- Little-endian byte decomposition of one machine word of `w` bytes (the
binary field form packs 8-byte IEEE floats; each float travels as its 64-bit
pattern). -/
def wordToBytes : Nat → Nat → List Nat
  | 0, _ => []
  | w + 1, x => x % 256 :: wordToBytes w (x / 256)

/-- Little-endian recomposition of a machine word from its bytes. -/
def wordFromBytes : List Nat → Nat
  | [] => 0
  | b :: bs => b + 256 * wordFromBytes bs

/-- Modelled from the spec: the binary field payload — raw little-endian
8-byte words packed in element order with no separators. -/
def encodeWords : List Nat → List Nat
  | [] => []
  | x :: xs => wordToBytes 8 x ++ encodeWords xs

/-- Decodes exactly `n` packed 8-byte words; any size mismatch fails. -/
def decodeWords : Nat → List Nat → Option (List Nat)
  | 0, [] => some []
  | 0, _ :: _ => none
  | n + 1, bs =>
      if bs.length < 8 then none
      else
        match decodeWords n (bs.drop 8) with
        | some xs => some (wordFromBytes (bs.take 8) :: xs)
        | none => none

/-- Flattens a field's elements (each a tuple of `arity` words) into the
packed word order. -/
def joinElems : List (List Nat) → List Nat
  | [] => []
  | e :: es => e ++ joinElems es

/-- Regroups decoded words into `n` elements of `arity` components each. -/
def chunkWords (arity : Nat) : Nat → List Nat → List (List Nat)
  | 0, _ => []
  | n + 1, ws => ws.take arity :: chunkWords arity n (ws.drop arity)

/-- Modelled from the spec: binary encoding of a nonuniform field — a leading
element-count plus the packed little-endian payload. -/
def encodeBinaryField (elems : List (List Nat)) : Nat × List Nat :=
  (elems.length, encodeWords (joinElems elems))

/-- Modelled from the spec: binary decoding — reads `count × arity` words
and regroups them per element; any count or size mismatch fails. -/
def decodeBinaryField (arity count : Nat) (bytes : List Nat) :
    Option (List (List Nat)) :=
  match decodeWords (count * arity) bytes with
  | some ws => some (chunkWords arity count ws)
  | none => none

/-- Modelled from the spec: the deflate compressor.  Deflate is an external
standardized codec of which the spec uses only losslessness and the recorded
byte lengths, so it is modelled by an executable lossless run-length codec
with the same contract. -/
def deflate : List Nat → List (Nat × Nat)
  | [] => []
  | b :: bs =>
      match deflate bs with
      | (b', n) :: rest =>
          if b' = b then (b, n + 1) :: rest else (b, 1) :: (b', n) :: rest
      | [] => [(b, 1)]

/-- The inverse of the modelled compressor. -/
def inflate : List (Nat × Nat) → List Nat
  | [] => []
  | (b, n) :: rest => List.replicate n b ++ inflate rest

/-- Modelled from the spec: compressed encoding — the binary payload passed
through the compressor, with the original byte length recorded so the decoder
can verify sizes. -/
def encodeCompressedField (elems : List (List Nat)) :
    Nat × Nat × List (Nat × Nat) :=
  let (count, bytes) := encodeBinaryField elems
  (count, bytes.length, deflate bytes)

/-- Modelled from the spec: compressed decoding — decompress, verify the
recorded original size, then decode the binary payload. -/
def decodeCompressedField (arity count origLen : Nat)
    (comp : List (Nat × Nat)) : Option (List (List Nat)) :=
  let bytes := inflate comp
  if bytes.length = origLen then decodeBinaryField arity count bytes
  else none

/-- Converts a numeric token's value back to a machine count; fails unless
the number is a nonnegative integer. -/
def ratToNat : ℚ → Option Nat
  | q => if q.den = 1 ∧ 0 ≤ q.num then some q.num.toNat else none

/-- Converts a list of numeric token values back to machine words. -/
def natsOf : List ℚ → Option (List Nat)
  | [] => some []
  | q :: qs =>
      match ratToNat q, natsOf qs with
      | some n, some ns => some (n :: ns)
      | _, _ => none

/-- Renders the modelled compressor's output as the flat byte-span payload
of a compressed binary field. -/
def flattenPairs : List (Nat × Nat) → List Nat
  | [] => []
  | (b, n) :: rest => b :: n :: flattenPairs rest

/-- Recovers the compressor's output from a flat byte-span payload. -/
def unflattenPairs : List Nat → Option (List (Nat × Nat))
  | [] => some []
  | b :: n :: rest =>
      match unflattenPairs rest with
      | some ps => some ((b, n) :: ps)
      | none => none
  | _ => none

/-- Reads numeric tokens up to a closing parenthesis (one ASCII field
element's components). -/
def takeNumsRp : List Token → Option (List ℚ × List Token)
  | Token.num q :: rest =>
      match takeNumsRp rest with
      | some (qs, r) => some (q :: qs, r)
      | none => none
  | Token.rparen :: rest => some ([], rest)
  | _ => none

/-- Modelled from the spec (§4.3): the ASCII form of a nonuniform field's
elements — each element printed as its parenthesized component tuple. -/
def asciiElems : List (List Nat) → List Token
  | [] => []
  | e :: es =>
      Token.lparen :: ((e.map fun w : Nat => Token.num (w : ℚ)) ++
        Token.rparen :: asciiElems es)

/-- Parses the ASCII elements of a nonuniform field up to the payload's
closing parenthesis (fuel bounds the element count). -/
def parseTuples : Nat → List Token → Option (List (List Nat) × List Token)
  | 0, _ => none
  | _ + 1, Token.rparen :: rest => some ([], rest)
  | fuel + 1, Token.lparen :: rest =>
      match takeNumsRp rest with
      | some (qs, rest₁) =>
          match natsOf qs with
          | some ws =>
              match parseTuples fuel rest₁ with
              | some (es, rest₂) => some (ws :: es, rest₂)
              | none => none
          | none => none
      | none => none
  | _, _ => none

mutual

/-- Modelled from the spec: the serializer, rendering a Document Tree to the
token sequence of its byte output (header handled separately; whitespace is
cosmetic).  Sequences are parenthesized, mappings are braced, a dimensioned
quantity renders as `name [d1 .. d7] value`, and every non-mapping entry ends
with a semicolon. -/
def serializeValue : Value → List Token
  | .word s => [.word s]
  | .num q => [.num q]
  | .list xs => Token.lparen :: (serializeItems xs ++ [Token.rparen])
  | .dict es => Token.lbrace :: (serializeEntries es ++ [Token.rbrace])
  | .dimensioned n d v =>
      Token.word n :: Token.lbrack ::
        (d.toList.map Token.num ++ Token.rbrack :: serializeValue v)
  | .fieldUniform v => Token.uniform :: serializeValue v
  | .fieldNonUniform enc arity elems =>
      Token.nonuniform :: Token.num (arity : ℚ) ::
        Token.num (elems.length : ℚ) ::
        (match enc with
         | .ascii => Token.lparen :: (asciiElems elems ++ [Token.rparen])
         | .binary =>
             [Token.lparen,
              Token.binspan (encodeWords (joinElems elems)), Token.rparen]
         | .compressed =>
             Token.num ((encodeWords (joinElems elems)).length : ℚ) ::
               [Token.lparen,
                Token.binspan (flattenPairs (deflate
                  (encodeWords (joinElems elems)))), Token.rparen])
  | .directive n c => [Token.directive n c]

def serializeItems : List Value → List Token
  | [] => []
  | v :: vs => serializeValue v ++ serializeItems vs

def serializeEntries : List (Option String × Value) → List Token
  | [] => []
  | e :: es => serializeEntry e ++ serializeEntries es

def serializeEntry : Option String × Value → List Token
  | (some k, v) =>
      Token.word k ::
        (serializeValue v ++ if v.noSemi then [] else [Token.semi])
  | (none, v) => serializeValue v ++ if v.noSemi then [] else [Token.semi]

end

/-- Reads the numeric tokens of a dimension vector up to its closing
bracket. -/
def takeNums : List Token → Option (List ℚ × List Token)
  | Token.num q :: rest =>
      match takeNums rest with
      | some (qs, r) => some (q :: qs, r)
      | none => none
  | Token.rbrack :: rest => some ([], rest)
  | _ => none

mutual

/-- Modelled from the spec: the recursive-descent parser over the token
stream (fuel makes the recursion structurally terminating; any sufficient
fuel gives the same result).  `parseValue` consumes one value,
`parseItems` the items of a parenthesized sequence including the closing
parenthesis, `parseEntries` the entries of a mapping stopping at the closing
brace (or end of input for the top level), and `parseEntry` one entry
including its terminating semicolon when present. -/
def parseValue : Nat → List Token → Option (Value × List Token)
  | 0, _ => none
  | fuel + 1, ts =>
      match ts with
      | Token.word s :: Token.lbrack :: rest =>
          match takeNums rest with
          | some (qs, rest₁) =>
              match DimensionSet.fromList qs with
              | some d =>
                  match parseValue fuel rest₁ with
                  | some (v, rest₂) => some (.dimensioned s d v, rest₂)
                  | none => none
              | none => none
          | none => none
      | Token.word s :: rest => some (.word s, rest)
      | Token.num q :: rest => some (.num q, rest)
      | Token.lparen :: rest =>
          match parseItems fuel rest with
          | some (xs, rest₁) => some (.list xs, rest₁)
          | none => none
      | Token.lbrace :: rest =>
          match parseEntries fuel rest with
          | some (es, Token.rbrace :: rest₁) => some (.dict es, rest₁)
          | _ => none
      | Token.uniform :: rest =>
          match parseValue fuel rest with
          | some (v, rest₁) => some (.fieldUniform v, rest₁)
          | none => none
      | Token.nonuniform :: Token.num a :: Token.num c :: rest =>
          match ratToNat a, ratToNat c with
          | some arity, some cnt =>
              match rest with
              | Token.lparen :: Token.binspan bs :: Token.rparen :: rest₁ =>
                  match decodeBinaryField arity cnt bs with
                  | some elems =>
                      some (.fieldNonUniform .binary arity elems, rest₁)
                  | none => none
              | Token.num m :: Token.lparen :: Token.binspan comp ::
                  Token.rparen :: rest₁ =>
                  match ratToNat m, unflattenPairs comp with
                  | some origLen, some ps =>
                      if (inflate ps).length = origLen then
                        match decodeBinaryField arity cnt (inflate ps) with
                        | some elems =>
                            some (.fieldNonUniform .compressed arity elems,
                              rest₁)
                        | none => none
                      else none
                  | _, _ => none
              | Token.lparen :: rest₁ =>
                  match parseTuples fuel rest₁ with
                  | some (elems, rest₂) =>
                      if elems.length = cnt ∧ ∀ e ∈ elems, e.length = arity
                      then some (.fieldNonUniform .ascii arity elems, rest₂)
                      else none
                  | none => none
              | _ => none
          | _, _ => none
      | Token.directive n c :: rest => some (.directive n c, rest)
      | _ => none

def parseItems : Nat → List Token → Option (List Value × List Token)
  | 0, _ => none
  | fuel + 1, ts =>
      match ts with
      | Token.rparen :: rest => some ([], rest)
      | _ =>
          match parseValue fuel ts with
          | some (v, rest) =>
              match parseItems fuel rest with
              | some (vs, rest₁) => some (v :: vs, rest₁)
              | none => none
          | none => none

def parseEntries :
    Nat → List Token → Option (List (Option String × Value) × List Token)
  | 0, _ => none
  | fuel + 1, ts =>
      match ts with
      | [] => some ([], [])
      | Token.rbrace :: _ => some ([], ts)
      | _ =>
          match parseEntry fuel ts with
          | some (e, rest) =>
              match parseEntries fuel rest with
              | some (es, rest₁) => some (e :: es, rest₁)
              | none => none
          | none => none

def parseEntry :
    Nat → List Token → Option ((Option String × Value) × List Token)
  | 0, _ => none
  | fuel + 1, ts =>
      match ts with
      | Token.word s :: Token.semi :: rest => some ((none, .word s), rest)
      | Token.word _ :: Token.lbrack :: _ =>
          match parseValue fuel ts with
          | some (v, Token.semi :: rest) => some ((none, v), rest)
          | _ => none
      | Token.word k :: rest =>
          match parseValue fuel rest with
          | some (v, rest₁) =>
              if v.noSemi then some ((some k, v), rest₁)
              else
                match rest₁ with
                | Token.semi :: rest₂ => some ((some k, v), rest₂)
                | _ => none
          | none => none
      | _ =>
          match parseValue fuel ts with
          | some (v, rest₁) =>
              if v.noSemi then some ((none, v), rest₁)
              else
                match rest₁ with
                | Token.semi :: rest₂ => some ((none, v), rest₂)
                | _ => none
          | none => none

end

mutual

/-- Structural size of a value, used as the fuel bound for the parser. -/
def sizeV : Value → Nat
  | .word _ => 1
  | .num _ => 1
  | .list xs => sizeL xs + 1
  | .dict es => sizeE es + 1
  | .dimensioned _ _ v => sizeV v + 1
  | .fieldUniform v => sizeV v + 1
  | .fieldNonUniform _ _ elems => elems.length + 1
  | .directive _ _ => 1

def sizeL : List Value → Nat
  | [] => 0
  | v :: vs => sizeV v + sizeL vs + 1

def sizeE : List (Option String × Value) → Nat
  | [] => 0
  | e :: es => sizeEnt e + sizeE es + 1

def sizeEnt : Option String × Value → Nat
  | (_, v) => sizeV v + 1

end

/-- A parsed document: the ordered entries of one file's root mapping,
including the mandatory "FoamFile" header entry. -/
abbrev Doc := List (Option String × Value)

/-- Modelled from the spec: the error taxonomy of §7 (FileNotFoundError,
KeyError, ValueError, ParseError). -/
inductive Err where
  | fileNotFound
  | keyError
  | valueError
  | parseError
deriving DecidableEq

/-- Looks a key up in a mapping's entries, first match in insertion order. -/
def lookupKey : Doc → Option String → Option Value
  | [], _ => none
  | (k', v) :: es, k => if k' = k then some v else lookupKey es k

/-- Modelled from the spec: assignment inserts a new key at the end or
replaces the value of an existing key in place, preserving its position. -/
def setKey : Doc → Option String → Value → Doc
  | [], k, v => [(k, v)]
  | (k', v') :: es, k, v =>
      if k' = k then (k', v) :: es else (k', v') :: setKey es k v

/-- Modelled from the spec: deletion removes a key, or fails with KeyError
when the key is absent. -/
def eraseKey : Doc → Option String → Except Err Doc
  | [], _ => .error .keyError
  | (k', v') :: es, k =>
      if k' = k then .ok es
      else
        match eraseKey es k with
        | .ok es' => .ok ((k', v') :: es')
        | .error e => .error e

/-- Modelled from the spec: reading a key fails with KeyError when the key
is absent. -/
def readKey (t : Doc) (k : Option String) : Except Err Value :=
  match lookupKey t k with
  | some v => .ok v
  | none => .error .keyError

/-- The mandatory header entry's key. -/
def headerKey : Option String := some "FoamFile"

/-- Modelled from the test suite: the user-visible entries — every entry
except the mandatory "FoamFile" header entry. -/
def userEntries (t : Doc) : Doc := t.filter fun e => decide (e.1 ≠ headerKey)

/-- The accessor's reported length: user entries only. -/
def flen (t : Doc) : Nat := (userEntries t).length

/-- The accessor's iteration order: user entries' keys in insertion order. -/
def fkeys (t : Doc) : List (Option String) := (userEntries t).map (·.1)

/-- Containment consults the full mapping, header entry included. -/
def fcontains (t : Doc) (k : Option String) : Bool := (lookupKey t k).isSome

/-- Modelled from the spec: multi-segment path addressing — an ordered tuple
of keys descends through nested mappings; the final segment is read from the
innermost mapping. -/
def getPath (t : Doc) : List (Option String) → Option Value
  | [] => none
  | [k] => lookupKey t k
  | k :: k' :: rest =>
      match lookupKey t k with
      | some (.dict es) => getPath es (k' :: rest)
      | _ => none

/-- Modelled from the spec: path assignment — descends through nested
mappings and assigns at the final segment; a missing key fails with
KeyError and a path segment that is not a mapping fails with ValueError. -/
def setPath (t : Doc) : List (Option String) → Value → Except Err Doc
  | [], _ => .error .valueError
  | [k], v => .ok (setKey t k v)
  | k :: k' :: rest, v =>
      match lookupKey t k with
      | some (.dict es) =>
          match setPath es (k' :: rest) v with
          | .ok es' => .ok (setKey t k (.dict es'))
          | .error e => .error e
      | some _ => .error .valueError
      | none => .error .keyError

/-- Element assignment on a plain sequence, as Python's `lst[i] = x` performed
on the list object returned by path indexing. -/
def listSet (xs : List Value) (i : Nat) (x : Value) : List Value := xs.set i x

/-- Modelled from the spec: the structured accessor's lazy-load cache
(§4.5, §9 `Unloaded → Loaded(tree)`): the backing file may be absent; the
first successful read tokenizes and parses once and caches the tree; entering
a scoped edit block only defers write-back and does not itself load the
file. -/
structure Accessor where
  file : Option (List Token)
  cache : Option Doc
  parses : Nat
  inScope : Bool

/-- A freshly constructed accessor: nothing loaded or parsed yet. -/
def Accessor.make (file : Option (List Token)) : Accessor :=
  ⟨file, none, 0, false⟩

/-- Entering the scoped batched-edit block: defers write-back only. -/
def Accessor.enterScope (a : Accessor) : Accessor := { a with inScope := true }

/-- Modelled from the spec: lazy load — a cached tree is reused as is; a
missing backing file fails with FileNotFoundError; otherwise the file is
tokenized and parsed once and the tree cached. -/
def Accessor.load (a : Accessor) : Except Err (Doc × Accessor) :=
  match a.cache with
  | some t => .ok (t, a)
  | none =>
      match a.file with
      | none => .error .fileNotFound
      | some bytes =>
          match parseEntries (bytes.length + 1) bytes with
          | some (t, []) =>
              .ok (t, { a with cache := some t, parses := a.parses + 1 })
          | _ => .error .parseError

/-- Reading one key through the accessor. -/
def Accessor.read (a : Accessor) (k : Option String) :
    Except Err (Value × Accessor) :=
  match a.load with
  | .ok (t, a') =>
      match lookupKey t k with
      | some v => .ok (v, a')
      | none => .error .keyError
  | .error e => .error e

/-- Reading a key path through the accessor. -/
def Accessor.readPath (a : Accessor) (p : List (Option String)) :
    Except Err (Value × Accessor) :=
  match a.load with
  | .ok (t, a') =>
      match getPath t p with
      | some v => .ok (v, a')
      | none => .error .keyError
  | .error e => .error e

/-- Modelled from the spec: a time snapshot — its nominal label and the
field files it owns. -/
structure Snapshot where
  label : String
  fields : Doc

/-- Modelled from the spec: a case directory — the initial/constant snapshot
(always first, whatever its nominal label), the result snapshots keyed by
their numeric time values, and the generated logs. -/
structure FoamCase where
  initial : Snapshot
  times : List (ℚ × Snapshot)
  logs : List String

/-- The ordered sequence of snapshots: the initial one, then the result
snapshots in stored (time) order. -/
def FoamCase.snapshots (c : FoamCase) : List Snapshot :=
  c.initial :: c.times.map (·.2)

/-- Modelled from the spec: indexing into the snapshot sequence; a negative
index addresses from the most recent end, `-1` being the most recent. -/
def FoamCase.snapAt (c : FoamCase) (i : Int) : Option Snapshot :=
  if 0 ≤ i then c.snapshots.get? i.toNat
  else c.snapshots.get? (c.snapshots.length - (-i).toNat)

/-- The sortedness invariant on a case's result snapshots: strictly
ascending numeric time values. -/
def timesSorted (ts : List (ℚ × Snapshot)) : Prop :=
  List.Pairwise (fun a b => a.1 < b.1) ts

/-- Inserts one result snapshot at its time-ordered position. -/
def insertTime : List (ℚ × Snapshot) → ℚ → Snapshot → List (ℚ × Snapshot)
  | [], t, s => [(t, s)]
  | (t', s') :: rest, t, s =>
      if t < t' then (t, s) :: (t', s') :: rest
      else (t', s') :: insertTime rest t s

/-- Modelled from the spec: a successful `run()` — the external solver's new
time snapshots become visible at their time-ordered positions and the run's
log is kept. -/
def FoamCase.run (c : FoamCase) (new : List (ℚ × Snapshot)) (log : String) :
    FoamCase :=
  { c with
    times := new.foldl (fun acc p => insertTime acc p.1 p.2) c.times,
    logs := c.logs ++ [log] }

/-- Modelled from the spec: `clean()` removes every snapshot except the
initial one and removes generated logs. -/
def FoamCase.clean (c : FoamCase) : FoamCase :=
  { initial := c.initial, times := [], logs := [] }

/-- Modelled from the spec: a dimensioned quantity — a name, a 7-component
dimension vector and a value. -/
structure Dimensioned where
  name : String
  dimensions : DimensionSet
  value : Value

/-- Modelled from the test suite: constructing a dimensioned quantity from a
raw dimensions list; the 7-component shape is validated. -/
def Dimensioned.ofList (name : String) (dims : List ℚ) (value : Value) :
    Option Dimensioned :=
  (DimensionSet.fromList dims).map fun d => ⟨name, d, value⟩

/-- A sample document exercising every Document Tree node kind: word
scalar, subdictionary, nested sequence, dimensioned quantity, uniform and
nonuniform field blocks in all three encodings, and a directive. -/
def sampleDoc : Doc :=
  [(some "key", Value.word "value"),
   (some "subdict", Value.dict
     [(some "list", Value.list [.num 1, .num 2, .num 3])]),
   (some "g", Value.dimensioned "g" { mass := 1, length := 1, time := -2 }
     (.list [.num 0, .num 0, .num (-981/100)])),
   (some "internalField", Value.fieldUniform (.num 0)),
   (some "p", Value.fieldNonUniform .binary 3 [[1, 2, 4294967296]]),
   (some "U", Value.fieldNonUniform .compressed 3 [[7, 8, 9], [0, 1, 2]]),
   (some "T", Value.fieldNonUniform .ascii 3 [[4, 5, 6]]),
   (none, Value.directive "include" "\"settings\"")]

/-- Tokens that can begin a serialized value or entry. -/
def Token.isStart : Token → Bool
  | .word _ => true
  | .num _ => true
  | .lparen => true
  | .lbrace => true
  | .uniform => true
  | .nonuniform => true
  | .directive _ _ => true
  | _ => false

/-- A token stream that does not begin with an opening bracket (a serialized
word followed by such a stream is read as a bare word, not as the name of a
dimensioned quantity). -/
def noLB (ts : List Token) : Prop := ts.head? ≠ some Token.lbrack

/-- A token stream that validly follows the entries of a mapping: end of
input (top level) or the mapping's closing brace. -/
def endsOK (ts : List Token) : Prop :=
  ts = [] ∨ ts.head? = some Token.rbrace

theorem lookup_setKey_self (t : Doc) (k : Option String) (v : Value) :
    lookupKey (setKey t k v) k = some v := by
  induction t with
  | nil => simp [setKey, lookupKey]
  | cons e es ih =>
      obtain ⟨k', v'⟩ := e
      by_cases h : k' = k
      · simp [setKey, lookupKey, h]
      · simp [setKey, lookupKey, h, ih]

theorem lookup_setKey_other (t : Doc) (k k' : Option String) (v : Value)
    (h : k' ≠ k) : lookupKey (setKey t k v) k' = lookupKey t k' := by
  have h' : ¬k = k' := fun hh => h hh.symm
  induction t with
  | nil => simp [setKey, lookupKey, h']
  | cons e es ih =>
      obtain ⟨k₀, v₀⟩ := e
      by_cases h0 : k₀ = k
      · subst h0
        simp [setKey, lookupKey, h']
      · by_cases h1 : k₀ = k'
        · subst h1
          simp [setKey, lookupKey, h0]
        · simp [setKey, lookupKey, h0, h1, ih]

theorem lookupKey_eq_none (t : Doc) (k : Option String) :
    lookupKey t k = none ↔ k ∉ t.map (·.1) := by
  induction t with
  | nil => simp [lookupKey]
  | cons e es ih =>
      obtain ⟨k', v'⟩ := e
      by_cases h : k' = k
      · simp [lookupKey, h]
      · simp [lookupKey, h, ih, Ne.symm h]

theorem eraseKey_absent (t : Doc) (k : Option String)
    (h : k ∉ t.map (·.1)) : eraseKey t k = .error .keyError := by
  induction t with
  | nil => simp [eraseKey]
  | cons e es ih =>
      obtain ⟨k', v'⟩ := e
      simp only [List.map_cons, List.mem_cons, not_or] at h
      have hne : ¬k' = k := fun hh => h.1 hh.symm
      simp [eraseKey, hne, ih h.2]

theorem eraseKey_split (t : Doc) (k : Option String)
    (h : k ∈ t.map (·.1)) :
    ∃ t₁ v t₂, t = t₁ ++ (k, v) :: t₂ ∧ k ∉ t₁.map (·.1) ∧
      eraseKey t k = .ok (t₁ ++ t₂) := by
  induction t with
  | nil => simp at h
  | cons e es ih =>
      obtain ⟨k', v'⟩ := e
      by_cases hk : k' = k
      · subst hk
        exact ⟨[], v', es, by simp, by simp, by simp [eraseKey]⟩
      · have h' : k ∈ es.map (·.1) := by
          simp only [List.map_cons, List.mem_cons] at h
          rcases h with h | h
          · exact absurd h.symm hk
          · exact h
        obtain ⟨t₁, v, t₂, heq, hnot, herase⟩ := ih h'
        refine ⟨(k', v') :: t₁, v, t₂, by simp [heq], ?_, ?_⟩
        · simp only [List.map_cons, List.mem_cons, not_or]
          exact ⟨fun hh => hk hh.symm, hnot⟩
        · simp [eraseKey, hk, herase]

theorem userEntries_append (a b : Doc) :
    userEntries (a ++ b) = userEntries a ++ userEntries b := by
  simp [userEntries, List.filter_append]

theorem mem_fkeys (t : Doc) (k : Option String) :
    k ∈ fkeys t ↔ k ∈ t.map (·.1) ∧ k ≠ headerKey := by
  simp only [fkeys, userEntries, List.mem_map, List.mem_filter,
    decide_eq_true_eq]
  constructor
  · rintro ⟨e, ⟨he, hne⟩, rfl⟩
    exact ⟨⟨e, he, rfl⟩, hne⟩
  · rintro ⟨⟨e, he, rfl⟩, hne⟩
    exact ⟨e, ⟨he, hne⟩, rfl⟩

theorem serializeValue_head (v : Value) :
    ∃ t ts, serializeValue v = t :: ts ∧ t.isStart = true := by
  cases v <;> exact ⟨_, _, rfl, rfl⟩

theorem serializeEntry_head (e : Option String × Value) :
    ∃ t ts, serializeEntry e = t :: ts ∧ t.isStart = true := by
  obtain ⟨k, v⟩ := e
  cases k with
  | some k => exact ⟨_, _, rfl, rfl⟩
  | none =>
      obtain ⟨t, ts, hv, ht⟩ := serializeValue_head v
      exact ⟨t, ts ++ if v.noSemi then [] else [Token.semi],
        by simp [serializeEntry, hv], ht⟩

theorem noLB_items (vs : List Value) (r : List Token) :
    noLB (serializeItems vs ++ Token.rparen :: r) := by
  cases vs with
  | nil => simp [serializeItems, noLB]
  | cons v vs =>
      obtain ⟨t, ts, hv, ht⟩ := serializeValue_head v
      simp only [serializeItems, List.append_assoc, hv, List.cons_append,
        noLB, List.head?_cons, ne_eq, Option.some.injEq]
      intro h
      rw [h] at ht
      simp [Token.isStart] at ht

theorem noLB_entries (es : List (Option String × Value)) (r : List Token)
    (hr : endsOK r) : noLB (serializeEntries es ++ r) := by
  cases es with
  | nil =>
      rcases hr with h | h
      · simp [serializeEntries, h, noLB]
      · cases r with
        | nil => simp at h
        | cons t r' =>
            simp only [List.head?_cons, Option.some.injEq] at h
            simp [serializeEntries, h, noLB]
  | cons e es =>
      obtain ⟨t, ts, he, ht⟩ := serializeEntry_head e
      simp only [serializeEntries, List.append_assoc, he, List.cons_append,
        noLB, List.head?_cons, ne_eq, Option.some.injEq]
      intro h
      rw [h] at ht
      simp [Token.isStart] at ht

theorem takeNums_map (qs : List ℚ) (r : List Token) :
    takeNums (qs.map Token.num ++ Token.rbrack :: r) = some (qs, r) := by
  induction qs with
  | nil => simp [takeNums]
  | cons q qs ih => simp [takeNums, ih]

theorem DimensionSet.fromList_toList (d : DimensionSet) :
    DimensionSet.fromList d.toList = some d := rfl

theorem ratToNat_cast (n : Nat) : ratToNat (n : ℚ) = some n := by
  simp [ratToNat, Rat.den_natCast, Rat.num_natCast]

theorem ratToNat_zero : ratToNat (0 : ℚ) = some 0 := by
  simpa using ratToNat_cast 0

theorem ratToNat_cast_add_one (n : Nat) :
    ratToNat ((n : ℚ) + 1) = some (n + 1) := by
  rw [← Nat.cast_add_one]
  exact ratToNat_cast (n + 1)

theorem natsOf_cast (ws : List Nat) :
    natsOf (ws.map fun w : Nat => (w : ℚ)) = some ws := by
  induction ws with
  | nil => simp only [List.map_nil, natsOf]
  | cons w ws ih => simp only [List.map_cons, natsOf, ratToNat_cast, ih]

theorem unflattenPairs_flattenPairs (ps : List (Nat × Nat)) :
    unflattenPairs (flattenPairs ps) = some ps := by
  induction ps with
  | nil => simp [flattenPairs, unflattenPairs]
  | cons p ps ih =>
      obtain ⟨b, n⟩ := p
      simp [flattenPairs, unflattenPairs, ih]

theorem takeNumsRp_map (ws : List Nat) (r : List Token) :
    takeNumsRp ((ws.map fun w : Nat => Token.num (w : ℚ)) ++
        Token.rparen :: r) =
      some (ws.map fun w : Nat => (w : ℚ), r) := by
  induction ws with
  | nil => simp only [List.map_nil, List.nil_append, takeNumsRp]
  | cons w ws ih =>
      simp only [List.map_cons, List.cons_append, takeNumsRp,
        List.append_eq, ih]

theorem parseTuples_asciiElems (elems : List (List Nat)) (r : List Token)
    (fuel : Nat) (h : elems.length < fuel) :
    parseTuples fuel (asciiElems elems ++ Token.rparen :: r) =
      some (elems, r) := by
  induction elems generalizing fuel with
  | nil =>
      cases fuel with
      | zero => omega
      | succ n => simp [asciiElems, parseTuples]
  | cons e es ih =>
      cases fuel with
      | zero => omega
      | succ n =>
          have hn : es.length < n := by
            simp only [List.length_cons] at h; omega
          simp only [asciiElems, List.cons_append, List.append_assoc]
          simp only [parseTuples, takeNumsRp_map, natsOf_cast, ih n hn]

theorem mem_joinElems (elems : List (List Nat)) (x : Nat) :
    x ∈ joinElems elems ↔ ∃ e ∈ elems, x ∈ e := by
  induction elems with
  | nil => simp [joinElems]
  | cons e es ih => simp [joinElems, ih]

theorem wf_fieldNonUniform (enc : Encoding) (arity : Nat)
    (elems : List (List Nat)) (h : wfV (.fieldNonUniform enc arity elems)) :
    (∀ e ∈ elems, e.length = arity) ∧
      ∀ x ∈ joinElems elems, x < 256 ^ 8 := by
  simp only [wfV, List.all_eq_true, Bool.and_eq_true, beq_iff_eq,
    decide_eq_true_eq] at h
  refine ⟨fun e he => (h e he).1, fun x hx => ?_⟩
  obtain ⟨e, he, hxe⟩ := (mem_joinElems elems x).mp hx
  exact (h e he).2 x hxe

theorem wfE_setKey (t : Doc) (k : Option String) (v : Value)
    (ht : wfE t = true) (hv : wfV v = true) :
    wfE (setKey t k v) = true := by
  induction t with
  | nil => simp [setKey, wfE, wfEnt, hv]
  | cons e es ih =>
      obtain ⟨k', v'⟩ := e
      simp only [wfE, wfEnt, Bool.and_eq_true] at ht
      by_cases h : k' = k
      · simp [setKey, h, wfE, wfEnt, hv, ht.2]
      · simp [setKey, h, wfE, wfEnt, ht.1, ih ht.2]

theorem parseItems_step (n : Nat) (ts : List Token)
    (h : ∀ r, ts ≠ Token.rparen :: r) :
    parseItems (n + 1) ts =
      match parseValue n ts with
      | some (v, rest) =>
          match parseItems n rest with
          | some (vs, rest₁) => some (v :: vs, rest₁)
          | none => none
      | none => none := by
  cases ts with
  | nil => simp [parseItems]
  | cons t r =>
      cases t
      case rparen => exact absurd rfl (h r)
      all_goals simp [parseItems]

theorem parseEntries_step (n : Nat) (ts : List Token)
    (hne : ts ≠ []) (h : ∀ r, ts ≠ Token.rbrace :: r) :
    parseEntries (n + 1) ts =
      match parseEntry n ts with
      | some (e, rest) =>
          match parseEntries n rest with
          | some (es, rest₁) => some (e :: es, rest₁)
          | none => none
      | none => none := by
  cases ts with
  | nil => exact absurd rfl hne
  | cons t r =>
      cases t
      case rbrace => exact absurd rfl (h r)
      all_goals simp [parseEntries]

theorem parseEntry_word_step (n : Nat) (k : String) (ts : List Token)
    (hsemi : ∀ r, ts ≠ Token.semi :: r) (hlb : ∀ r, ts ≠ Token.lbrack :: r) :
    parseEntry (n + 1) (Token.word k :: ts) =
      match parseValue n ts with
      | some (v, rest₁) =>
          if v.noSemi then some ((some k, v), rest₁)
          else
            match rest₁ with
            | Token.semi :: rest₂ => some ((some k, v), rest₂)
            | _ => none
      | none => none := by
  cases ts with
  | nil => simp [parseEntry]
  | cons t r =>
      cases t
      case semi => exact absurd rfl (hsemi r)
      case lbrack => exact absurd rfl (hlb r)
      all_goals simp [parseEntry]

theorem parseEntry_dim_step (n : Nat) (s : String) (ts : List Token) :
    parseEntry (n + 1) (Token.word s :: Token.lbrack :: ts) =
      match parseValue n (Token.word s :: Token.lbrack :: ts) with
      | some (v, Token.semi :: rest) => some ((none, v), rest)
      | _ => none := by
  simp [parseEntry]

theorem parseEntry_default_step (n : Nat) (ts : List Token)
    (h : ∀ s r, ts ≠ Token.word s :: r) :
    parseEntry (n + 1) ts =
      match parseValue n ts with
      | some (v, rest₁) =>
          if v.noSemi then some ((none, v), rest₁)
          else
            match rest₁ with
            | Token.semi :: rest₂ => some ((none, v), rest₂)
            | _ => none
      | none => none := by
  cases ts with
  | nil => simp [parseEntry]
  | cons t r =>
      cases t
      case word s => exact absurd rfl (h s r)
      all_goals simp [parseEntry]

theorem wordToBytes_length (w x : Nat) : (wordToBytes w x).length = w := by
  induction w generalizing x with
  | zero => simp [wordToBytes]
  | succ w ih => simp [wordToBytes, ih]

theorem wordFromBytes_wordToBytes (w x : Nat) (h : x < 256 ^ w) :
    wordFromBytes (wordToBytes w x) = x := by
  induction w generalizing x with
  | zero =>
      simp only [pow_zero, Nat.lt_one_iff] at h
      simp [wordToBytes, wordFromBytes, h]
  | succ w ih =>
      have hdiv : x / 256 < 256 ^ w := by
        rw [Nat.div_lt_iff_lt_mul (by omega)]
        calc x < 256 ^ (w + 1) := h
          _ = 256 ^ w * 256 := by ring
      simp [wordToBytes, wordFromBytes, ih _ hdiv, Nat.mod_add_div]

theorem decodeWords_encodeWords (ws : List Nat)
    (h : ∀ x ∈ ws, x < 256 ^ 8) :
    decodeWords ws.length (encodeWords ws) = some ws := by
  induction ws with
  | nil => simp [encodeWords, decodeWords]
  | cons x xs ih =>
      have hx : x < 256 ^ 8 := h x (by simp)
      have hxs := ih fun y hy => h y (by simp [hy])
      have hlen : (wordToBytes 8 x).length = 8 := wordToBytes_length 8 x
      simp only [encodeWords, List.length_cons, decodeWords]
      rw [List.drop_left' hlen, List.take_left' hlen, hxs,
        wordFromBytes_wordToBytes 8 x hx]
      simp [List.length_append, hlen]

theorem joinElems_length (elems : List (List Nat)) (arity : Nat)
    (h : ∀ e ∈ elems, e.length = arity) :
    (joinElems elems).length = elems.length * arity := by
  induction elems with
  | nil => simp [joinElems]
  | cons e es ih =>
      have he : e.length = arity := h e (by simp)
      have hes := ih fun e' he' => h e' (by simp [he'])
      simp [joinElems, he, hes, Nat.succ_mul, Nat.add_comm]

theorem chunkWords_joinElems (elems : List (List Nat)) (arity : Nat)
    (h : ∀ e ∈ elems, e.length = arity) :
    chunkWords arity elems.length (joinElems elems) = elems := by
  induction elems with
  | nil => simp [chunkWords]
  | cons e es ih =>
      have he : e.length = arity := h e (by simp)
      have hes := ih fun e' he' => h e' (by simp [he'])
      simp only [joinElems, List.length_cons, chunkWords]
      rw [List.take_left' he, List.drop_left' he, hes]

theorem inflate_deflate (bs : List Nat) : inflate (deflate bs) = bs := by
  induction bs with
  | nil => simp [deflate, inflate]
  | cons b bs ih =>
      cases hc : deflate bs with
      | nil =>
          rw [hc] at ih
          simp only [inflate] at ih
          simp [deflate, hc, inflate, ih.symm]
      | cons p rest =>
          obtain ⟨b', n⟩ := p
          rw [hc] at ih
          by_cases hb : b' = b
          · subst hb
            simp only [deflate, hc, if_pos rfl]
            simp only [inflate, List.replicate_succ, List.cons_append] at ih ⊢
            rw [ih]
          · simp only [deflate, hc, if_neg hb]
            simp only [inflate, List.replicate_succ] at ih ⊢
            simp [ih]

theorem decodeBinaryField_encodeBinaryField (elems : List (List Nat))
    (arity : Nat) (harity : ∀ e ∈ elems, e.length = arity)
    (hword : ∀ x ∈ joinElems elems, x < 256 ^ 8) :
    decodeBinaryField arity (encodeBinaryField elems).1
      (encodeBinaryField elems).2 = some elems := by
  simp only [decodeBinaryField, encodeBinaryField]
  rw [show elems.length * arity = (joinElems elems).length from
    (joinElems_length elems arity harity).symm]
  rw [decodeWords_encodeWords _ hword]
  simp [chunkWords_joinElems elems arity harity]

theorem parse_serialize_aux (fuel : Nat) :
    (∀ v rest, wfV v = true → sizeV v < fuel → noLB rest →
      parseValue fuel (serializeValue v ++ rest) = some (v, rest)) ∧
    (∀ xs rest, wfL xs = true → sizeL xs < fuel →
      parseItems fuel (serializeItems xs ++ Token.rparen :: rest) =
        some (xs, rest)) ∧
    (∀ es rest, wfE es = true → sizeE es < fuel → endsOK rest →
      parseEntries fuel (serializeEntries es ++ rest) = some (es, rest)) ∧
    (∀ e rest, wfEnt e = true → sizeEnt e < fuel → noLB rest →
      parseEntry fuel (serializeEntry e ++ rest) = some (e, rest)) := by
  induction fuel with
  | zero =>
      exact ⟨fun v rest _ h _ => absurd h (Nat.not_lt_zero _),
             fun xs rest _ h => absurd h (Nat.not_lt_zero _),
             fun es rest _ h _ => absurd h (Nat.not_lt_zero _),
             fun e rest _ h _ => absurd h (Nat.not_lt_zero _)⟩
  | succ n ih =>
      obtain ⟨ihV, ihI, ihE, ihEnt⟩ := ih
      refine ⟨?_, ?_, ?_, ?_⟩
      · intro v rest hwf hs hnl
        cases v with
        | word s =>
            cases rest with
            | nil => simp [serializeValue, parseValue]
            | cons t r =>
                cases t
                case lbrack => simp [noLB] at hnl
                all_goals simp [serializeValue, parseValue]
        | num q => simp [serializeValue, parseValue]
        | list xs =>
            have hxs : sizeL xs < n := by simp only [sizeV] at hs; omega
            have hwf' : wfL xs = true := by simpa [wfV] using hwf
            have h1 := ihI xs rest hwf' hxs
            simp only [serializeValue, List.cons_append, List.append_assoc,
              List.singleton_append] at h1 ⊢
            simp [parseValue, h1]
        | dict es =>
            have hes : sizeE es < n := by simp only [sizeV] at hs; omega
            have hwf' : wfE es = true := by simpa [wfV] using hwf
            have h1 := ihE es (Token.rbrace :: rest) hwf' hes (Or.inr rfl)
            simp only [serializeEntry, List.cons_append, List.append_assoc,
              List.singleton_append] at h1 ⊢
            simp [serializeValue, parseValue, h1]
        | dimensioned nm d v =>
            have hv : sizeV v < n := by simp only [sizeV] at hs; omega
            have hwf' : wfV v = true := by simpa [wfV] using hwf
            have h1 := ihV v rest hwf' hv hnl
            simp only [serializeValue, List.cons_append, List.append_assoc,
              List.singleton_append]
            simp [parseValue, takeNums_map, DimensionSet.fromList_toList, h1]
        | fieldUniform v =>
            have hv : sizeV v < n := by simp only [sizeV] at hs; omega
            have hwf' : wfV v = true := by simpa [wfV] using hwf
            have h1 := ihV v rest hwf' hv hnl
            simp only [serializeValue, List.cons_append, List.append_assoc,
              List.singleton_append] at h1 ⊢
            simp [parseValue, h1]
        | fieldNonUniform enc arity elems =>
            obtain ⟨har, hbound⟩ := wf_fieldNonUniform enc arity elems hwf
            have hlen : elems.length < n := by
              simp only [sizeV] at hs; omega
            cases enc with
            | ascii =>
                have htp := parseTuples_asciiElems elems rest n hlen
                cases elems with
                | nil =>
                    simp only [serializeValue, asciiElems, List.cons_append,
                      List.append_assoc, List.nil_append,
                      List.singleton_append] at htp ⊢
                    simp [parseValue, ratToNat_cast, ratToNat_zero, htp]
                | cons e es =>
                    have har' : ∀ a ∈ es, a.length = arity := fun a ha =>
                      har a (List.mem_cons_of_mem _ ha)
                    have hare : e.length = arity := har e (by simp)
                    simp only [serializeValue, asciiElems, List.cons_append,
                      List.append_assoc, List.nil_append,
                      List.singleton_append] at htp ⊢
                    simp [parseValue, ratToNat_cast, ratToNat_cast_add_one,
                      htp, hare]
                    exact har'
            | binary =>
                have hdec :=
                  decodeBinaryField_encodeBinaryField elems arity har hbound
                simp only [encodeBinaryField] at hdec
                simp only [serializeValue, List.cons_append,
                  List.append_assoc, List.singleton_append]
                simp [parseValue, ratToNat_cast, hdec]
            | compressed =>
                have hdec :=
                  decodeBinaryField_encodeBinaryField elems arity har hbound
                simp only [encodeBinaryField] at hdec
                simp only [serializeValue, List.cons_append,
                  List.append_assoc, List.singleton_append]
                simp [parseValue, ratToNat_cast, unflattenPairs_flattenPairs,
                  inflate_deflate, hdec]
        | directive nm c => simp [serializeValue, parseValue]
      · intro xs rest hwf hs
        cases xs with
        | nil => simp [serializeItems, parseItems]
        | cons v vs =>
            have hv : sizeV v < n := by simp only [sizeL] at hs; omega
            have hvs : sizeL vs < n := by simp only [sizeL] at hs; omega
            have hwfv : wfV v = true ∧ wfL vs = true := by
              simpa [wfL, Bool.and_eq_true] using hwf
            obtain ⟨t, ts, hhead, hstart⟩ := serializeValue_head v
            have hne : ∀ r,
                serializeValue v ++ (serializeItems vs ++ Token.rparen :: rest)
                  ≠ Token.rparen :: r := by
              intro r h
              rw [hhead] at h
              simp only [List.cons_append, List.cons.injEq] at h
              rw [h.1] at hstart
              simp [Token.isStart] at hstart
            have h1 := ihV v (serializeItems vs ++ Token.rparen :: rest)
              hwfv.1 hv (noLB_items vs rest)
            have h2 := ihI vs rest hwfv.2 hvs
            simp only [serializeItems, List.append_assoc]
            rw [parseItems_step n _ hne]
            simp [h1, h2]
      · intro es rest hwf hs hend
        cases es with
        | nil =>
            rcases hend with h | h
            · subst h; simp [serializeEntries, parseEntries]
            · cases rest with
              | nil => simp at h
              | cons t r =>
                  simp only [List.head?_cons, Option.some.injEq] at h
                  subst h
                  simp [serializeEntries, parseEntries]
        | cons e es =>
            have he : sizeEnt e < n := by simp only [sizeE] at hs; omega
            have hes : sizeE es < n := by simp only [sizeE] at hs; omega
            have hwfe : wfEnt e = true ∧ wfE es = true := by
              simpa [wfE, Bool.and_eq_true] using hwf
            obtain ⟨t, ts, hhead, hstart⟩ := serializeEntry_head e
            have hne : serializeEntry e ++ (serializeEntries es ++ rest)
                ≠ [] := by
              rw [hhead]; simp
            have hnrb : ∀ r,
                serializeEntry e ++ (serializeEntries es ++ rest)
                  ≠ Token.rbrace :: r := by
              intro r h
              rw [hhead] at h
              simp only [List.cons_append, List.cons.injEq] at h
              rw [h.1] at hstart
              simp [Token.isStart] at hstart
            have h1 := ihEnt e (serializeEntries es ++ rest) hwfe.1 he
              (noLB_entries es rest hend)
            have h2 := ihE es rest hwfe.2 hes hend
            simp only [serializeEntries, List.append_assoc]
            rw [parseEntries_step n _ hne hnrb]
            simp [h1, h2]
      · intro e rest hwf he hnl
        obtain ⟨k, v⟩ := e
        have hv : sizeV v < n := by simp only [sizeEnt] at he; omega
        have hwfv : wfV v = true := by simpa [wfEnt] using hwf
        cases k with
        | none =>
            cases v with
            | word s => simp [serializeEntry, serializeValue, Value.noSemi,
                parseEntry]
            | num q =>
                have h1 := ihV (.num q) (Token.semi :: rest) hwfv hv
                  (by simp [noLB])
                simp only [serializeValue, List.cons_append, List.nil_append,
                  List.singleton_append, List.append_assoc] at h1 ⊢
                simp [serializeEntry, serializeValue, Value.noSemi,
                  parseEntry, h1]
            | list xs =>
                have h1 := ihV (.list xs) (Token.semi :: rest) hwfv hv
                  (by simp [noLB])
                simp only [serializeValue, List.cons_append, List.nil_append,
                  List.singleton_append, List.append_assoc] at h1 ⊢
                simp [serializeEntry, serializeValue, Value.noSemi,
                  parseEntry, h1]
            | dict es =>
                have h1 := ihV (.dict es) rest hwfv hv hnl
                simp only [serializeValue, List.cons_append, List.nil_append,
                  List.singleton_append, List.append_assoc] at h1 ⊢
                simp [serializeEntry, serializeValue, Value.noSemi,
                  parseEntry, h1]
            | dimensioned nm d v' =>
                have h1 := ihV (.dimensioned nm d v') (Token.semi :: rest)
                  hwfv hv (by simp [noLB])
                simp only [serializeValue, List.cons_append, List.nil_append,
                  List.singleton_append, List.append_assoc] at h1 ⊢
                simp [serializeEntry, serializeValue, Value.noSemi,
                  parseEntry, h1]
            | fieldUniform v' =>
                have h1 := ihV (.fieldUniform v') (Token.semi :: rest)
                  hwfv hv (by simp [noLB])
                simp only [serializeValue, List.cons_append, List.nil_append,
                  List.singleton_append, List.append_assoc] at h1 ⊢
                simp [serializeEntry, serializeValue, Value.noSemi,
                  parseEntry, h1]
            | fieldNonUniform enc arity elems =>
                have h1 := ihV (.fieldNonUniform enc arity elems)
                  (Token.semi :: rest) hwfv hv (by simp [noLB])
                simp only [serializeValue, List.cons_append, List.nil_append,
                  List.singleton_append, List.append_assoc] at h1 ⊢
                simp [serializeEntry, serializeValue, Value.noSemi,
                  parseEntry, h1]
            | directive nm c =>
                have h1 := ihV (.directive nm c) rest hwfv hv hnl
                simp only [serializeValue, List.cons_append, List.nil_append,
                  List.singleton_append, List.append_assoc] at h1 ⊢
                simp [serializeEntry, serializeValue, Value.noSemi,
                  parseEntry, h1]
        | some k =>
            cases v with
            | word s =>
                have h1 := ihV (.word s) (Token.semi :: rest) hwfv hv
                  (by simp [noLB])
                simp only [serializeValue, List.cons_append, List.nil_append,
                  List.singleton_append, List.append_assoc] at h1 ⊢
                simp [serializeEntry, serializeValue, Value.noSemi,
                  parseEntry, h1]
            | num q =>
                have h1 := ihV (.num q) (Token.semi :: rest) hwfv hv
                  (by simp [noLB])
                simp only [serializeValue, List.cons_append, List.nil_append,
                  List.singleton_append, List.append_assoc] at h1 ⊢
                simp [serializeEntry, serializeValue, Value.noSemi,
                  parseEntry, h1]
            | list xs =>
                have h1 := ihV (.list xs) (Token.semi :: rest) hwfv hv
                  (by simp [noLB])
                simp only [serializeValue, List.cons_append, List.nil_append,
                  List.singleton_append, List.append_assoc] at h1 ⊢
                simp [serializeEntry, serializeValue, Value.noSemi,
                  parseEntry, h1]
            | dict es =>
                have h1 := ihV (.dict es) rest hwfv hv hnl
                simp only [serializeValue, List.cons_append, List.nil_append,
                  List.singleton_append, List.append_assoc] at h1 ⊢
                simp [serializeEntry, serializeValue, Value.noSemi,
                  parseEntry, h1]
            | dimensioned nm d v' =>
                have h1 := ihV (.dimensioned nm d v') (Token.semi :: rest)
                  hwfv hv (by simp [noLB])
                simp only [serializeValue, List.cons_append, List.nil_append,
                  List.singleton_append, List.append_assoc] at h1 ⊢
                simp [serializeEntry, serializeValue, Value.noSemi,
                  parseEntry, h1]
            | fieldUniform v' =>
                have h1 := ihV (.fieldUniform v') (Token.semi :: rest)
                  hwfv hv (by simp [noLB])
                simp only [serializeValue, List.cons_append, List.nil_append,
                  List.singleton_append, List.append_assoc] at h1 ⊢
                simp [serializeEntry, serializeValue, Value.noSemi,
                  parseEntry, h1]
            | fieldNonUniform enc arity elems =>
                have h1 := ihV (.fieldNonUniform enc arity elems)
                  (Token.semi :: rest) hwfv hv (by simp [noLB])
                simp only [serializeValue, List.cons_append, List.nil_append,
                  List.singleton_append, List.append_assoc] at h1 ⊢
                simp [serializeEntry, serializeValue, Value.noSemi,
                  parseEntry, h1]
            | directive nm c =>
                have h1 := ihV (.directive nm c) rest hwfv hv hnl
                simp only [serializeValue, List.cons_append, List.nil_append,
                  List.singleton_append, List.append_assoc] at h1 ⊢
                simp [serializeEntry, serializeValue, Value.noSemi,
                  parseEntry, h1]

theorem insertTime_perm (ts : List (ℚ × Snapshot)) (t : ℚ) (s : Snapshot) :
    List.Perm (insertTime ts t s) ((t, s) :: ts) := by
  induction ts with
  | nil => simp [insertTime]
  | cons p rest ih =>
      obtain ⟨t', s'⟩ := p
      by_cases h : t < t'
      · simp [insertTime, h]
      · simp only [insertTime, if_neg h]
        exact (ih.cons _).trans (List.Perm.swap _ _ _)

theorem insertTime_sorted (ts : List (ℚ × Snapshot)) (t : ℚ) (s : Snapshot)
    (hs : timesSorted ts) (ht : ∀ p ∈ ts, p.1 ≠ t) :
    timesSorted (insertTime ts t s) := by
  induction ts with
  | nil => simp [insertTime, timesSorted]
  | cons p rest ih =>
      obtain ⟨t', s'⟩ := p
      rw [timesSorted, List.pairwise_cons] at hs
      obtain ⟨hhead, htail⟩ := hs
      rw [timesSorted]
      by_cases h : t < t'
      · simp only [insertTime, if_pos h]
        refine List.Pairwise.cons ?_ (List.Pairwise.cons hhead htail)
        intro q hq
        rcases List.mem_cons.mp hq with rfl | hq
        · exact h
        · exact h.trans (hhead q hq)
      · have hne : t' ≠ t := ht (t', s') (by simp)
        have h1 : t' < t := lt_of_le_of_ne (not_lt.mp h) hne
        simp only [insertTime, if_neg h]
        have htail' := ih htail fun p hp => ht p (by simp [hp])
        rw [timesSorted] at htail'
        refine List.Pairwise.cons ?_ htail'
        intro q hq
        have hq' : q ∈ (t, s) :: rest :=
          (insertTime_perm rest t s).mem_iff.mp hq
        rcases List.mem_cons.mp hq' with rfl | hq'
        · exact h1
        · exact hhead q hq'

theorem snapAt_zero (c : FoamCase) : c.snapAt 0 = some c.initial := by
  simp [FoamCase.snapAt, FoamCase.snapshots]

theorem snapAt_neg_one (c : FoamCase) :
    c.snapAt (-1) = c.snapshots.getLast? := by
  simp only [FoamCase.snapAt]
  norm_num
  rw [List.getLast?_eq_getElem?]

/-- C2: For every Document Tree representable by the grammar — over the full
node sum Mapping | Sequence | Scalar | DimensionedQuantity | FieldBlock
(uniform, and nonuniform in ascii, binary and compressed encodings) |
Directive, where representable means every nonuniform field's elements have
the declared component arity and fit the 64-bit float width (`wfE`) —
parsing the bytes produced by serializing the tree yields the tree back
(comments and whitespace are insignificant and already absent at the token
level, so the cycle is token-exact); in particular, assigning any
representable value to a key and then reading that key back through the
serialize/reparse cycle returns a value equal to the one assigned.  The fuel
argument is an artifact of the embedding: any bound above the tree's size
gives the same result. -/
theorem foamlib_C2 (t : Doc) (fuel : Nat) (k : Option String) (v : Value)
    (hwt : wfE t = true) (hwv : wfV v = true)
    (h : sizeE t < fuel) (h' : sizeE (setKey t k v) < fuel) :
    parseEntries fuel (serializeEntries t) = some (t, []) ∧
    parseEntries fuel (serializeEntries (setKey t k v)) =
      some (setKey t k v, []) ∧
    lookupKey (setKey t k v) k = some v := by
  obtain ⟨-, -, hE, -⟩ := parse_serialize_aux fuel
  refine ⟨?_, ?_, lookup_setKey_self t k v⟩
  · simpa using hE t [] hwt h (Or.inl rfl)
  · simpa using hE (setKey t k v) [] (wfE_setKey t k v hwt hwv) h'
      (Or.inl rfl)

/-- C2 witness: the round trip and assign/read-back at a concrete document
holding a word entry, a subdictionary, a list, a dimensioned quantity,
a uniform field, nonuniform fields in ascii, binary and compressed
encodings, and a directive. -/
theorem foamlib_C2_witness :
    parseEntries 100 (serializeEntries sampleDoc) = some (sampleDoc, []) ∧
    parseEntries 100 (serializeEntries (setKey sampleDoc (some "x")
      (Value.num 2))) =
      some (setKey sampleDoc (some "x") (Value.num 2), []) ∧
    lookupKey (setKey sampleDoc (some "x") (Value.num 2)) (some "x") =
      some (Value.num 2) :=
  foamlib_C2 sampleDoc 100 (some "x") (Value.num 2) (by decide) (by decide)
    (by decide) (by decide)

/-- C5: for a mapping with unique keys, deleting a present user key removes
it from the reported length and the iteration order and its containment
becomes false; re-deleting it, deleting an absent key, or reading an absent
key fails with KeyError. -/
theorem foamlib_C5 (t : Doc) (k : Option String)
    (hnd : (t.map (·.1)).Nodup) (hk : k ∈ fkeys t) :
    (∃ t', eraseKey t k = .ok t' ∧
      flen t' + 1 = flen t ∧
      k ∉ fkeys t' ∧
      fcontains t' k = false ∧
      eraseKey t' k = .error .keyError ∧
      readKey t' k = .error .keyError) ∧
    ∀ k₀, k₀ ∉ t.map (·.1) →
      eraseKey t k₀ = .error .keyError ∧ readKey t k₀ = .error .keyError := by
  obtain ⟨hkmem, hkh⟩ := (mem_fkeys t k).mp hk
  obtain ⟨t₁, v, t₂, heq, hnot1, herase⟩ := eraseKey_split t k hkmem
  subst heq
  have hknot : k ∉ (t₁ ++ t₂).map (·.1) := by
    have h' := hnd
    simp only [List.map_append, List.map_cons] at h'
    rw [List.nodup_middle, List.nodup_cons] at h'
    simpa [List.map_append] using h'.1
  have hlook : lookupKey (t₁ ++ t₂) k = none := (lookupKey_eq_none _ k).mpr hknot
  refine ⟨⟨t₁ ++ t₂, herase, ?_, ?_, ?_, ?_, ?_⟩, ?_⟩
  · simp [flen, userEntries_append, userEntries, List.filter_cons,
      decide_eq_true_eq, hkh]
    omega
  · intro hmem
    exact hknot ((mem_fkeys _ k).mp hmem).1
  · simp [fcontains, hlook]
  · exact eraseKey_absent _ k hknot
  · simp [readKey, hlook]
  · intro k₀ hk₀
    exact ⟨eraseKey_absent _ k₀ hk₀,
      by simp [readKey, (lookupKey_eq_none _ k₀).mpr hk₀]⟩

/-- C5 witness: deletion semantics at a concrete two-entry document (header
plus one user key). -/
theorem foamlib_C5_witness :
    (∃ t', eraseKey [(headerKey, Value.dict []),
        (some "key", Value.word "value")] (some "key") = .ok t' ∧
      flen t' + 1 = flen [(headerKey, Value.dict []),
        (some "key", Value.word "value")] ∧
      some "key" ∉ fkeys t' ∧
      fcontains t' (some "key") = false ∧
      eraseKey t' (some "key") = .error .keyError ∧
      readKey t' (some "key") = .error .keyError) ∧
    ∀ k₀, k₀ ∉ ([(headerKey, Value.dict []),
        (some "key", Value.word "value")] : Doc).map (·.1) →
      eraseKey [(headerKey, Value.dict []),
        (some "key", Value.word "value")] k₀ = .error .keyError ∧
      readKey [(headerKey, Value.dict []),
        (some "key", Value.word "value")] k₀ = .error .keyError :=
  foamlib_C5 _ (some "key") (by decide) (by decide)

/-- C10: the mandatory "FoamFile" header entry satisfies containment but is
excluded from the reported length and the iteration order: with the header
plus one assigned user key, the length is 1 and iteration yields only that
key; the header key never appears in any document's iteration order. -/
theorem foamlib_C10 (hdr v : Value) (k : Option String)
    (hk : k ≠ headerKey) :
    fcontains (setKey [(headerKey, hdr)] k v) headerKey = true ∧
    flen (setKey [(headerKey, hdr)] k v) = 1 ∧
    fkeys (setKey [(headerKey, hdr)] k v) = [k] ∧
    ∀ t : Doc, headerKey ∉ fkeys t := by
  have hne : ¬headerKey = k := fun hh => hk hh.symm
  have hset : setKey [(headerKey, hdr)] k v = [(headerKey, hdr), (k, v)] := by
    simp [setKey, hne]
  refine ⟨?_, ?_, ?_, ?_⟩
  · simp [hset, fcontains, lookupKey]
  · simp [hset, flen, userEntries, List.filter_cons, hk]
  · simp [hset, fkeys, userEntries, List.filter_cons, hk]
  · intro t hmem
    exact ((mem_fkeys t headerKey).mp hmem).2 rfl

/-- C10 witness: the header/containment behaviour at the test's concrete
document (one assigned key beside the header). -/
theorem foamlib_C10_witness :
    fcontains (setKey [(headerKey, Value.dict [])] (some "key")
      (Value.word "value")) headerKey = true ∧
    flen (setKey [(headerKey, Value.dict [])] (some "key")
      (Value.word "value")) = 1 ∧
    fkeys (setKey [(headerKey, Value.dict [])] (some "key")
      (Value.word "value")) = [some "key"] ∧
    ∀ t : Doc, headerKey ∉ fkeys t :=
  foamlib_C10 (Value.dict []) (Value.word "value") (some "key") (by decide)

/-- C4: a structured accessor whose backing file does not exist fails any
first read with FileNotFoundError, both outside and inside a scoped
batched-edit block; when the file exists and parses, the first access parses
once and caches the tree, and later accesses reuse the cache without
re-parsing. -/
theorem foamlib_C4 (bytes : List Token) (t : Doc) (k : Option String)
    (hp : parseEntries (bytes.length + 1) bytes = some (t, [])) :
    (Accessor.make none).read k = .error .fileNotFound ∧
    ((Accessor.make none).enterScope).read k = .error .fileNotFound ∧
    (Accessor.make (some bytes)).load = .ok (t,
      { file := some bytes, cache := some t, parses := 1,
        inScope := false }) ∧
    ∀ a : Accessor, a.cache = some t → a.load = .ok (t, a) := by
  refine ⟨?_, ?_, ?_, ?_⟩
  · simp [Accessor.make, Accessor.read, Accessor.load]
  · simp [Accessor.make, Accessor.read, Accessor.load, Accessor.enterScope]
  · simp [Accessor.make, Accessor.load, hp]
  · intro a ha
    simp [Accessor.load, ha]

/-- C4 witness: the accessor behaviour at a concrete one-entry file. -/
theorem foamlib_C4_witness :
    (Accessor.make none).read (some "key") = .error .fileNotFound ∧
    ((Accessor.make none).enterScope).read (some "key") =
      .error .fileNotFound ∧
    (Accessor.make (some [Token.word "key", Token.word "value",
      Token.semi])).load = .ok ([(some "key", Value.word "value")],
      { file := some [Token.word "key", Token.word "value", Token.semi],
        cache := some [(some "key", Value.word "value")], parses := 1,
        inScope := false }) ∧
    ∀ a : Accessor, a.cache = some [(some "key", Value.word "value")] →
      a.load = .ok ([(some "key", Value.word "value")], a) :=
  foamlib_C4 [Token.word "key", Token.word "value", Token.semi]
    [(some "key", Value.word "value")] (some "key") rfl

/-- C7: every dimension vector has exactly 7 components and unspecified
components default to zero; a dimensioned quantity constructed with the raw
list [1, 1, -2, 0, 0, 0, 0] equals one constructed from the named components
mass = 1, length = 1, time = -2, and its named accessors read those values
with the other four components zero. -/
theorem foamlib_C7 :
    (∀ d : DimensionSet, d.toList.length = 7) ∧
    DimensionSet.fromList [1, 1, -2, 0, 0, 0, 0] =
      some { mass := 1, length := 1, time := -2 } ∧
    (∀ name v, Dimensioned.ofList name [1, 1, -2, 0, 0, 0, 0] v =
      some ⟨name, { mass := 1, length := 1, time := -2 }, v⟩) ∧
    (({ mass := 1, length := 1, time := -2 } : DimensionSet).mass = 1 ∧
     ({ mass := 1, length := 1, time := -2 } : DimensionSet).length = 1 ∧
     ({ mass := 1, length := 1, time := -2 } : DimensionSet).time = -2 ∧
     ({ mass := 1, length := 1, time := -2 } : DimensionSet).temperature = 0 ∧
     ({ mass := 1, length := 1, time := -2 } : DimensionSet).moles = 0 ∧
     ({ mass := 1, length := 1, time := -2 } : DimensionSet).current = 0 ∧
     ({ mass := 1, length := 1,
        time := -2 } : DimensionSet).luminousIntensity = 0) ∧
    ∀ m l t : ℚ, ({ mass := m, length := l, time := t } : DimensionSet) =
      ⟨m, l, t, 0, 0, 0, 0⟩ :=
  ⟨fun _ => rfl, rfl, fun _ _ => rfl,
   ⟨rfl, rfl, rfl, rfl, rfl, rfl, rfl⟩, fun _ _ _ => rfl⟩

/-- C9: `clean()` removes every snapshot except the initial one and removes
generated logs, restoring the snapshot count to one; it is idempotent, and
cleaning after any successful run restores the same state. -/
theorem foamlib_C9 (c : FoamCase) :
    c.clean.snapshots = [c.initial] ∧
    c.clean.snapshots.length = 1 ∧
    c.clean.logs = [] ∧
    c.clean.clean = c.clean ∧
    ∀ new log, (c.run new log).clean = c.clean :=
  ⟨rfl, rfl, rfl, rfl, fun _ _ => rfl⟩

/-- C8: the snapshot sequence is ordered by numeric time value ascending
with the initial snapshot first regardless of its nominal label; index -1
addresses the most recent snapshot; and the time snapshots appended by a
successful run become visible at their ordered positions, the ordering and
initial-first property being preserved. -/
theorem foamlib_C8 (c : FoamCase) (hs : timesSorted c.times) :
    c.snapshots = c.initial :: c.times.map (·.2) ∧
    c.snapAt 0 = some c.initial ∧
    List.Pairwise (· < ·) (c.times.map (·.1)) ∧
    c.snapAt (-1) = c.snapshots.getLast? ∧
    ∀ t s log, (∀ p ∈ c.times, p.1 ≠ t) →
      timesSorted (c.run [(t, s)] log).times ∧
      s ∈ (c.run [(t, s)] log).snapshots ∧
      (c.run [(t, s)] log).snapAt 0 = some c.initial := by
  refine ⟨rfl, snapAt_zero c, ?_, snapAt_neg_one c, ?_⟩
  · exact List.pairwise_map.mpr hs
  · intro t s log ht
    have hrun : (c.run [(t, s)] log).times = insertTime c.times t s := by
      simp [FoamCase.run]
    refine ⟨?_, ?_, snapAt_zero _⟩
    · rw [hrun]
      exact insertTime_sorted c.times t s hs ht
    · have hmem : (t, s) ∈ insertTime c.times t s :=
        (insertTime_perm c.times t s).mem_iff.mpr (by simp)
      simp only [FoamCase.snapshots, hrun, List.mem_cons]
      exact Or.inr (List.mem_map.mpr ⟨(t, s), hmem, rfl⟩)

/-- C8 witness: the snapshot ordering behaviour at a concrete case with one
result snapshot at time 1 (the initial snapshot's nominal label being
"banana", not a time at all). -/
theorem foamlib_C8_witness :
    timesSorted (FoamCase.mk ⟨"banana", []⟩ [(1, ⟨"1", []⟩)] []).times ∧
    (FoamCase.mk ⟨"banana", []⟩ [(1, ⟨"1", []⟩)] []).snapAt 0 =
      some ⟨"banana", []⟩ ∧
    (FoamCase.mk ⟨"banana", []⟩ [(1, ⟨"1", []⟩)] []).snapAt (-1) =
      (FoamCase.mk ⟨"banana", []⟩ [(1, ⟨"1", []⟩)] []).snapshots.getLast? :=
  ⟨by simp [timesSorted],
   (foamlib_C8 (FoamCase.mk ⟨"banana", []⟩ [(1, ⟨"1", []⟩)] [])
     (by simp [timesSorted])).2.1,
   (foamlib_C8 (FoamCase.mk ⟨"banana", []⟩ [(1, ⟨"1", []⟩)] [])
     (by simp [timesSorted])).2.2.2.1⟩

/-- C3: encoding a nonuniform field of vector elements (3 components of
64-bit words each) in binary form and decoding it back reproduces the
original bit patterns exactly; the deflate-compressed cycle, with the
recorded original size verified, is likewise lossless. -/
theorem foamlib_C3 (elems : List (List Nat))
    (harity : ∀ e ∈ elems, e.length = 3)
    (hword : ∀ e ∈ elems, ∀ x ∈ e, x < 256 ^ 8) :
    decodeBinaryField 3 (encodeBinaryField elems).1
      (encodeBinaryField elems).2 = some elems ∧
    decodeCompressedField 3 (encodeCompressedField elems).1
      (encodeCompressedField elems).2.1 (encodeCompressedField elems).2.2
      = some elems := by
  have hw : ∀ x ∈ joinElems elems, x < 256 ^ 8 := by
    intro x hx
    obtain ⟨e, he, hxe⟩ := (mem_joinElems elems x).mp hx
    exact hword e he x hxe
  have h1 := decodeBinaryField_encodeBinaryField elems 3 harity hw
  refine ⟨h1, ?_⟩
  simp only [decodeCompressedField, encodeCompressedField,
    encodeBinaryField]
  rw [inflate_deflate]
  simpa [decodeBinaryField, encodeBinaryField] using h1

/-- C3 witness: the binary and compressed round trips at a concrete
two-element vector field whose words include values above 2^32. -/
theorem foamlib_C3_witness :
    decodeBinaryField 3
      (encodeBinaryField [[1, 2, 4294967296], [0, 281474976710656, 6]]).1
      (encodeBinaryField [[1, 2, 4294967296], [0, 281474976710656, 6]]).2 =
      some [[1, 2, 4294967296], [0, 281474976710656, 6]] ∧
    decodeCompressedField 3
      (encodeCompressedField [[1, 2, 4294967296], [0, 281474976710656, 6]]).1
      (encodeCompressedField
        [[1, 2, 4294967296], [0, 281474976710656, 6]]).2.1
      (encodeCompressedField
        [[1, 2, 4294967296], [0, 281474976710656, 6]]).2.2 =
      some [[1, 2, 4294967296], [0, 281474976710656, 6]] :=
  foamlib_C3 [[1, 2, 4294967296], [0, 281474976710656, 6]]
    (by decide) (by decide)

/-- C6: assigning another mapping's subdictionary to a key stores a deep,
independent copy of its current snapshot: a later mutation through the
source mapping changes the source's subdictionary but leaves the assigned
copy holding the original snapshot, and the assignment itself leaves the
source untouched (the source is passed by value and never rebound). -/
theorem foamlib_C6 (m m2 : Doc) (k k' : Option String) (sub : Doc)
    (x : Value) (m' : Doc)
    (hsub : lookupKey m (some "subdict") = some (.dict sub))
    (hx : lookupKey sub k' ≠ some x)
    (hmut : setPath m [some "subdict", k'] x = .ok m') :
    lookupKey (setKey m2 k (.dict sub)) k = some (.dict sub) ∧
    lookupKey m' (some "subdict") = some (.dict (setKey sub k' x)) ∧
    Value.dict (setKey sub k' x) ≠ Value.dict sub := by
  have hm' : m' = setKey m (some "subdict") (.dict (setKey sub k' x)) := by
    simp only [setPath, hsub] at hmut
    exact (Except.ok.injEq _ _).mp hmut.symm ▸ rfl
  refine ⟨lookup_setKey_self m2 k _, ?_, ?_⟩
  · rw [hm']
    exact lookup_setKey_self m (some "subdict") _
  · intro h
    have hlists : setKey sub k' x = sub := by
      injection h
    have := lookup_setKey_self sub k' x
    rw [hlists] at this
    exact hx this

/-- C6 witness: the deep-copy independence at the test's concrete shapes. -/
theorem foamlib_C6_witness :
    lookupKey (setKey [] (some "subdict2")
      (.dict [(some "key", Value.word "value")])) (some "subdict2") =
      some (.dict [(some "key", Value.word "value")]) ∧
    lookupKey [(some "subdict", Value.dict
        [(some "key", Value.word "value"),
         (some "newkey", Value.word "z")])] (some "subdict") =
      some (.dict (setKey [(some "key", Value.word "value")]
        (some "newkey") (Value.word "z"))) ∧
    Value.dict (setKey [(some "key", Value.word "value")] (some "newkey")
      (Value.word "z")) ≠
      Value.dict [(some "key", Value.word "value")] :=
  foamlib_C6 [(some "subdict", Value.dict [(some "key", Value.word "value")])]
    [] (some "subdict2") (some "newkey")
    [(some "key", Value.word "value")] (Value.word "z")
    [(some "subdict", Value.dict
        [(some "key", Value.word "value"),
         (some "newkey", Value.word "z")])]
    rfl (by simp [lookupKey]) rfl

/-- C1 counterexample: at the test's concrete document (test_files.py lines
90–95), the sequence read through the path ("subdict","list") is [1, 2, 3];
performing the element assignment `lst[0] = 0` on the returned list yields
[0, 2, 3]; but reading back through the same path still yields the original
[1, 2, 3] — the claim's "the new element value is visible when reading back
through the same path" is false. -/
theorem foamlib_C1_counterexample :
    getPath [(some "subdict", Value.dict
        [(some "list", Value.list [.num 1, .num 2, .num 3])])]
      [some "subdict", some "list"]
      = some (Value.list [.num 1, .num 2, .num 3]) ∧
    listSet [Value.num 1, .num 2, .num 3] 0 (.num 0) =
      [Value.num 0, .num 2, .num 3] ∧
    getPath [(some "subdict", Value.dict
        [(some "list", Value.list [.num 1, .num 2, .num 3])])]
      [some "subdict", some "list"]
      ≠ some (Value.list (listSet [Value.num 1, .num 2, .num 3] 0
          (.num 0))) := by
  refine ⟨rfl, rfl, ?_⟩
  intro h
  have h0 : some (Value.list [Value.num 1, .num 2, .num 3]) =
      some (Value.list [Value.num 0, .num 2, .num 3]) := h
  injection h0 with h1
  injection h1 with h2
  injection h2 with h3 h4
  injection h3 with h5
  norm_num at h5

/-- C1 (amended): inside a deferred scoped edit, the element assignment
`doc["subdict","list"][0] = 0` mutates only the list object returned by the
path read, not the document: the mutated copy differs from the stored
sequence, reading back through the same path returns the original sequence
unchanged, and a top-level copy read before the scoped edit began is also
unaffected. -/
theorem foamlib_C1 (a : Accessor) (t : Doc) (p : List (Option String))
    (xs : List Value) (i : Nat) (x : Value) (k : Option String) (c : Value)
    (hc : a.cache = some t)
    (htop : lookupKey t k = some c)
    (hp : getPath t p = some (.list xs))
    (hi : i < xs.length)
    (hx : xs.get? i ≠ some x) :
    a.enterScope.readPath p = .ok (Value.list xs, a.enterScope) ∧
    listSet xs i x ≠ xs ∧
    a.enterScope.readPath p ≠
      .ok (Value.list (listSet xs i x), a.enterScope) ∧
    a.enterScope.read k = .ok (c, a.enterScope) := by
  have hload : a.enterScope.load = .ok (t, a.enterScope) := by
    simp [Accessor.load, Accessor.enterScope, hc]
  have hne : listSet xs i x ≠ xs := by
    intro h
    have hget := List.get?_set_eq_of_lt x hi
    rw [show xs.set i x = listSet xs i x from rfl, h] at hget
    exact hx hget
  refine ⟨?_, hne, ?_, ?_⟩
  · simp [Accessor.readPath, hload, hp]
  · simp only [Accessor.readPath, hload, hp]
    intro h
    have h1 : (Value.list xs, a.enterScope) =
        (Value.list (listSet xs i x), a.enterScope) := by
      injection h
    have h2 : Value.list xs = Value.list (listSet xs i x) :=
      congrArg Prod.fst h1
    have h3 : xs = listSet xs i x := by injection h2
    exact hne h3.symm
  · simp [Accessor.read, hload, htop]

/-- C1 witness: the amended behaviour at the test's concrete document and
path, inside the scoped edit. -/
theorem foamlib_C1_witness :
    (Accessor.mk (some []) (some [(some "subdict", Value.dict
        [(some "list", Value.list [.num 1, .num 2, .num 3])])]) 1
        false).enterScope.readPath [some "subdict", some "list"] =
      .ok (Value.list [.num 1, .num 2, .num 3],
        (Accessor.mk (some []) (some [(some "subdict", Value.dict
          [(some "list", Value.list [.num 1, .num 2, .num 3])])]) 1
          false).enterScope) ∧
    listSet [Value.num 1, .num 2, .num 3] 0 (.num 0) ≠
      [Value.num 1, .num 2, .num 3] ∧
    (Accessor.mk (some []) (some [(some "subdict", Value.dict
        [(some "list", Value.list [.num 1, .num 2, .num 3])])]) 1
        false).enterScope.readPath [some "subdict", some "list"] ≠
      .ok (Value.list (listSet [Value.num 1, .num 2, .num 3] 0 (.num 0)),
        (Accessor.mk (some []) (some [(some "subdict", Value.dict
          [(some "list", Value.list [.num 1, .num 2, .num 3])])]) 1
          false).enterScope) ∧
    (Accessor.mk (some []) (some [(some "subdict", Value.dict
        [(some "list", Value.list [.num 1, .num 2, .num 3])])]) 1
        false).enterScope.read (some "subdict") =
      .ok (Value.dict [(some "list", Value.list [.num 1, .num 2, .num 3])],
        (Accessor.mk (some []) (some [(some "subdict", Value.dict
          [(some "list", Value.list [.num 1, .num 2, .num 3])])]) 1
          false).enterScope) :=
  foamlib_C1 _ _ [some "subdict", some "list"]
    [Value.num 1, .num 2, .num 3] 0 (Value.num 0) (some "subdict")
    (Value.dict [(some "list", Value.list [.num 1, .num 2, .num 3])])
    rfl rfl rfl (by decide)
    (by
      intro h
      have h0 : some (Value.num (1 : ℚ)) = some (Value.num 0) := h
      injection h0 with h1
      injection h1 with h2
      norm_num at h2)

end Foamlib
